import Mathlib

/-!
Shallow embedding of distortos's `FifoQueueBase`
(`include/distortos/scheduler/FifoQueueBase.hpp`) together with the
counting-semaphore contract it consumes. Storage pointers are modelled as
slot indices into the storage region (`storageBegin_` is index 0 and
`storageEnd_` is the capacity, one slot per element stride, exactly as the
pointer arithmetic of the source walks `Storage<T>` elements), and the
storage region itself as a list of optional values, `none` standing for an
uninitialized slot (no live element object).
-/

namespace Distortos

/-- Modelled from the spec: the counting semaphore's state. `Semaphore.hpp`
is not among the sources; only its contract is consumed: a value bounded by
the configured maximum. -/
@[ext]
structure Semaphore where
  value : Nat
  maxValue : Nat
  deriving DecidableEq

/-- Modelled from the spec: the error kinds a semaphore operation can
return; the queue defines no error codes of its own. -/
inductive SemError where
  | wouldBlock
  | timedOut
  | interrupted
  | notPermitted
  | overflow
  deriving DecidableEq

/-- Modelled from the spec: `Semaphore::tryWait` — the non-blocking wait
variant; fails with WouldBlock when the value is zero, otherwise decrements
the value. -/
def Semaphore.tryWait (s : Semaphore) : Except SemError Semaphore :=
  if s.value = 0 then Except.error SemError.wouldBlock
  else Except.ok { s with value := s.value - 1 }

/-- Modelled from the spec: `Semaphore::post` — increments the value up to
the configured maximum; fails with Overflow when the value is already at the
maximum. -/
def Semaphore.post (s : Semaphore) : Except SemError Semaphore :=
  if s.maxValue ≤ s.value then Except.error SemError.overflow
  else Except.ok { s with value := s.value + 1 }

/-- Modelled from the spec: the outcomes a single wait call of any variant
(blocking, non-blocking, timed) may have on a semaphore: success consumes
one unit; WouldBlock only when the value is zero; TimedOut, Interrupted and
OperationNotPermitted leave the semaphore unchanged. -/
inductive WaitOutcome (s : Semaphore) : Except SemError Semaphore → Prop where
  | success : 0 < s.value → WaitOutcome s (Except.ok { s with value := s.value - 1 })
  | wouldBlock : s.value = 0 → WaitOutcome s (Except.error SemError.wouldBlock)
  | timedOut : WaitOutcome s (Except.error SemError.timedOut)
  | interrupted : WaitOutcome s (Except.error SemError.interrupted)
  | notPermitted : WaitOutcome s (Except.error SemError.notPermitted)

/-- State of `FifoQueueBase`: the two semaphores, the bounds of the storage
region, the two walking positions (slot indices), and the contents of the
storage region itself (`slots`), which in C++ is the external memory aliased
by the queue's pointers. -/
@[ext]
structure FifoQueueBase (α : Type) where
  popSemaphore_ : Semaphore
  pushSemaphore_ : Semaphore
  storageBegin_ : Nat
  storageEnd_ : Nat
  readPosition_ : Nat
  writePosition_ : Nat
  slots : List (Option α)
  deriving DecidableEq

/-- The constructor `FifoQueueBase(storage, maxElements, typeTag)`:
`popSemaphore_\x7b0, maxElements\x7d`, `pushSemaphore_\x7bmaxElements,
maxElements\x7d`, both positions at the beginning of the storage region; the
caller-supplied region is uninitialized, so no element objects exist in it. -/
def FifoQueueBase.construct (α : Type) (maxElements : Nat) : FifoQueueBase α :=
  { popSemaphore_ := { value := 0, maxValue := maxElements }
    pushSemaphore_ := { value := maxElements, maxValue := maxElements }
    storageBegin_ := 0
    storageEnd_ := maxElements
    readPosition_ := 0
    writePosition_ := 0
    slots := List.replicate maxElements none }

/-- The type-erased `Functor` interface (`estd::TypeErasedFunctor<void(void*&)>`):
an action on the storage region and the current position; the extra `σ`
carries the state reachable through the C++ functor's captured references. -/
def SlotFunctor (σ α : Type) : Type :=
  σ → List (Option α) → Nat → σ × List (Option α) × Nat

/-- `BoundedFunctor::operator()`: call the bounded functor on the slot at the
current position, then increment the position to the next slot (one element
stride). -/
def BoundedFunctor {σ α : Type} (boundedFunctor : σ → Option α → σ × Option α) :
    SlotFunctor σ α :=
  fun env slots storage =>
    let r := boundedFunctor env (slots.getD storage none)
    (r.1, slots.set storage r.2, storage + 1)

/-- The bounded functor built by `push(const T&)`: copy-construct the value
into the slot; the captured source is left unchanged. -/
def copyConstructAt {α : Type} : α → Option α → α × Option α :=
  fun value _slot => (value, some value)

/-- The bounded functor built by `push(T&&)`: move-construct the value into
the slot (the moved-from state of the source is not observable for the pure
values of the model). -/
def moveConstructAt {α : Type} : α → Option α → α × Option α :=
  fun value _slot => (value, some value)

/-- Modelled from the spec: the emplace-push bounded functor — the emplacing
overload is not among the sources; it constructs the element in place from
constructor arguments. -/
def emplaceConstructAt {α β : Type} (construct : β → α) : β → Option α → β × Option α :=
  fun args _slot => (args, some (construct args))

/-- The bounded functor built by `pop(T&)`: swap the slot's value with the
caller's out-parameter, then destroy the now-moved-from value left in the
slot (calling it on a free slot, which the protocol makes impossible, is
modelled as leaving the out-parameter unchanged). -/
def swapAndDestroyAt {α : Type} : α → Option α → α × Option α :=
  fun value slot =>
    let swapped : α × Option α :=
      match slot with
      | some swappedValue => (swappedValue, some value)
      | none => (value, slot)
    (swapped.1, none)

/-- Result of `popPushImplementation`: the returned error code (`none`
models the C++ return value 0) together with the final values of everything
the call receives by reference. -/
structure PopPushResult (σ α : Type) where
  result : Option SemError
  env : σ
  waitSemaphore : Semaphore
  postSemaphore : Semaphore
  storage : Nat
  slots : List (Option α)

/-- Modelled from the spec: the body of `FifoQueueBase::popPushImplementation`
(declared in the sources, defined elsewhere). Step 1: wait on the
wait-semaphore — `waitResult` is the outcome of the chosen wait variant — and
on failure return that error with nothing else touched. Step 2: invoke the
functor on the current position (it transitions the slot and advances the
position by one slot), then normalize the position to `storageBegin` when it
reaches `storageEnd` (ring wrap). Step 3: post the other semaphore,
propagating its error if it fails. -/
def FifoQueueBase.popPushImplementation {σ α : Type} (storageBegin storageEnd : Nat)
    (waitResult : Except SemError Semaphore) (functor : SlotFunctor σ α) (env : σ)
    (waitSemaphore postSemaphore : Semaphore) (storage : Nat) (slots : List (Option α)) :
    PopPushResult σ α :=
  match waitResult with
  | Except.error e => ⟨some e, env, waitSemaphore, postSemaphore, storage, slots⟩
  | Except.ok waitSemaphore' =>
    let r := functor env slots storage
    let storage' := if r.2.2 = storageEnd then storageBegin else r.2.2
    match postSemaphore.post with
    | Except.error e => ⟨some e, r.1, waitSemaphore', postSemaphore, storage', r.2.1⟩
    | Except.ok postSemaphore' => ⟨none, r.1, waitSemaphore', postSemaphore', storage', r.2.1⟩

/-- `FifoQueueBase::popImplementation`: delegates to `popPushImplementation`
with the pop-semaphore as wait-semaphore, the push-semaphore as
post-semaphore and `readPosition_` as the position reference. -/
def FifoQueueBase.popImplementation {σ α : Type} (q : FifoQueueBase α)
    (waitResult : Except SemError Semaphore) (functor : SlotFunctor σ α) (env : σ) :
    Option SemError × σ × FifoQueueBase α :=
  let r := FifoQueueBase.popPushImplementation q.storageBegin_ q.storageEnd_ waitResult
      functor env q.popSemaphore_ q.pushSemaphore_ q.readPosition_ q.slots
  (r.result, r.env,
    { q with popSemaphore_ := r.waitSemaphore, pushSemaphore_ := r.postSemaphore,
             readPosition_ := r.storage, slots := r.slots })

/-- `FifoQueueBase::pushImplementation`: delegates to `popPushImplementation`
with the push-semaphore as wait-semaphore, the pop-semaphore as
post-semaphore and `writePosition_` as the position reference. -/
def FifoQueueBase.pushImplementation {σ α : Type} (q : FifoQueueBase α)
    (waitResult : Except SemError Semaphore) (functor : SlotFunctor σ α) (env : σ) :
    Option SemError × σ × FifoQueueBase α :=
  let r := FifoQueueBase.popPushImplementation q.storageBegin_ q.storageEnd_ waitResult
      functor env q.pushSemaphore_ q.popSemaphore_ q.writePosition_ q.slots
  (r.result, r.env,
    { q with pushSemaphore_ := r.waitSemaphore, popSemaphore_ := r.postSemaphore,
             writePosition_ := r.storage, slots := r.slots })

/-- `FifoQueueBase::pop(T& value)`: pop via the swap-and-destroy bounded
functor; `waitResult` is the outcome of the wait variant used in step 1.
Returns the error code, the final contents of the caller's out-parameter and
the new queue state. -/
def FifoQueueBase.pop {α : Type} (q : FifoQueueBase α)
    (waitResult : Except SemError Semaphore) (value : α) :
    Option SemError × α × FifoQueueBase α :=
  q.popImplementation waitResult (BoundedFunctor swapAndDestroyAt) value

/-- `FifoQueueBase::push(const T& value)`: push via the copy-construct
bounded functor; `waitResult` is the outcome of the wait variant used in
step 1. -/
def FifoQueueBase.push {α : Type} (q : FifoQueueBase α)
    (waitResult : Except SemError Semaphore) (value : α) :
    Option SemError × FifoQueueBase α :=
  let r := q.pushImplementation waitResult (BoundedFunctor copyConstructAt) value
  (r.1, r.2.2)

/-- `FifoQueueBase::push(T&& value)`: push via the move-construct bounded
functor. -/
def FifoQueueBase.pushMove {α : Type} (q : FifoQueueBase α)
    (waitResult : Except SemError Semaphore) (value : α) :
    Option SemError × FifoQueueBase α :=
  let r := q.pushImplementation waitResult (BoundedFunctor moveConstructAt) value
  (r.1, r.2.2)

/-- Modelled from the spec: the emplace-push operation of the typed facade
(not among the sources): push via the emplace bounded functor, constructing
the element in place from `args`. -/
def FifoQueueBase.emplace {α β : Type} (q : FifoQueueBase α)
    (waitResult : Except SemError Semaphore) (construct : β → α) (args : β) :
    Option SemError × FifoQueueBase α :=
  let r := q.pushImplementation waitResult (BoundedFunctor (emplaceConstructAt construct)) args
  (r.1, r.2.2)

/-- Modelled from the spec: the non-blocking push variant instantiates
step 1 with `tryWait`. -/
def FifoQueueBase.tryPush {α : Type} (q : FifoQueueBase α) (value : α) :
    Option SemError × FifoQueueBase α :=
  q.push q.pushSemaphore_.tryWait value

/-- Modelled from the spec: the non-blocking pop variant instantiates step 1
with `tryWait`. -/
def FifoQueueBase.tryPop {α : Type} (q : FifoQueueBase α) (value : α) :
    Option SemError × α × FifoQueueBase α :=
  q.pop q.popSemaphore_.tryWait value

/-- Number of initialized slots (slots currently holding a live element) in
the queue's storage region. -/
def FifoQueueBase.countInitialized {α : Type} (q : FifoQueueBase α) : Nat :=
  q.slots.countP (fun s => s.isSome)

/-- One operation of a single-producer single-consumer trace: a non-blocking
push of a value, or a non-blocking pop. -/
inductive Op (α : Type) where
  | push (v : α)
  | pop

/-- Run a trace of queue operations, accumulating the list of successfully
pushed values and the list of successfully popped values (each pop's
out-parameter starts from the default `d`). -/
def runTraceAux {α : Type} (d : α) : List (Op α) → FifoQueueBase α → List α → List α →
    FifoQueueBase α × List α × List α
  | [], q, pushed, popped => (q, pushed, popped)
  | Op.push v :: ops, q, pushed, popped =>
    let r := q.tryPush v
    runTraceAux d ops r.2 (if r.1 = none then pushed ++ [v] else pushed) popped
  | Op.pop :: ops, q, pushed, popped =>
    let r := q.tryPop d
    runTraceAux d ops r.2.2 pushed (if r.1 = none then popped ++ [r.2.1] else popped)

/-- Run a trace of queue operations against a freshly constructed queue of
capacity `N`; returns the final queue state, the successfully pushed values
and the successfully popped values, in order. -/
def runTrace {α : Type} (N : Nat) (d : α) (ops : List (Op α)) :
    FifoQueueBase α × List α × List α :=
  runTraceAux d ops (FifoQueueBase.construct α N) [] []

/-- The arc of `k` slots of the ring starting at slot index `r` (indices
taken modulo the capacity `N`). -/
def arc {α : Type} (N : Nat) (slots : List (Option α)) (r : Nat) : Nat → List (Option α)
  | 0 => []
  | Nat.succ k => slots.getD (r % N) none :: arc N slots (r + 1) k

/-- The queue states reachable from a freshly constructed queue of capacity
`N` by completed push and pop operations of every element-construction
flavour, each with an arbitrary wait-variant outcome allowed by the
semaphore contract. -/
inductive Reachable {α : Type} (N : Nat) : FifoQueueBase α → Prop where
  | init : Reachable N (FifoQueueBase.construct α N)
  | pushStep (q : FifoQueueBase α) (wr : Except SemError Semaphore) (v : α) :
      Reachable N q → WaitOutcome q.pushSemaphore_ wr → Reachable N (q.push wr v).2
  | pushMoveStep (q : FifoQueueBase α) (wr : Except SemError Semaphore) (v : α) :
      Reachable N q → WaitOutcome q.pushSemaphore_ wr → Reachable N (q.pushMove wr v).2
  | emplaceStep {β : Type} (q : FifoQueueBase α) (wr : Except SemError Semaphore)
      (construct : β → α) (args : β) :
      Reachable N q → WaitOutcome q.pushSemaphore_ wr →
      Reachable N (q.emplace wr construct args).2
  | popStep (q : FifoQueueBase α) (wr : Except SemError Semaphore) (d : α) :
      Reachable N q → WaitOutcome q.popSemaphore_ wr → Reachable N (q.pop wr d).2.2

/-- The coupling invariant of the queue: relates a queue state to the list
of values already popped and the list of pending values (pushed, not yet
popped). The pending values sit in the arc of the ring that starts at the
read position; the semaphore values count the initialized and the free
slots. -/
structure Inv {α : Type} (N : Nat) (popped pending : List α) (q : FifoQueueBase α) : Prop where
  hlen : q.slots.length = N
  hbegin : q.storageBegin_ = 0
  hend : q.storageEnd_ = N
  hpopMax : q.popSemaphore_.maxValue = N
  hpushMax : q.pushSemaphore_.maxValue = N
  hpendLe : pending.length ≤ N
  hpopVal : q.popSemaphore_.value = pending.length
  hpushVal : q.pushSemaphore_.value = N - pending.length
  hread : q.readPosition_ = popped.length % N
  hwrite : q.writePosition_ = (popped.length + pending.length) % N
  hcontent : arc N q.slots popped.length pending.length = pending.map some
  hfree : ∀ i, i < N → (∀ t, t < pending.length → i ≠ (popped.length + t) % N) →
      q.slots.getD i none = none
  hcount : q.slots.countP (fun s => s.isSome) = pending.length

/-! Helper lemmas about lists, modular indices and ring arcs. -/

theorem getD_set_ne {β : Type} (x : β) (d : β) :
    ∀ (l : List β) (i j : Nat), i ≠ j → (l.set i x).getD j d = l.getD j d := by
  intro l
  induction l with
  | nil => intro i j _; rfl
  | cons a t ih =>
    intro i j hij
    cases i with
    | zero =>
      cases j with
      | zero => exact absurd rfl hij
      | succ j => rfl
    | succ i =>
      cases j with
      | zero => rfl
      | succ j => simpa using ih i j (fun h => hij (by rw [h]))

theorem getD_set_self {β : Type} (x : β) (d : β) :
    ∀ (l : List β) (i : Nat), i < l.length → (l.set i x).getD i d = x := by
  intro l
  induction l with
  | nil => intro i h; simp at h
  | cons a t ih =>
    intro i hi
    cases i with
    | zero => rfl
    | succ i => simpa using ih i (by simpa using hi)

theorem getD_replicate_none {α : Type} (n : Nat) :
    ∀ i, (List.replicate n (none : Option α)).getD i none = none := by
  induction n with
  | zero => intro i; rfl
  | succ n ih =>
    intro i
    cases i with
    | zero => rfl
    | succ i => simp only [List.replicate_succ, List.getD_cons_succ]; exact ih i

theorem countP_replicate_none {α : Type} (n : Nat) :
    (List.replicate n (none : Option α)).countP (fun s => s.isSome) = 0 := by
  induction n with
  | zero => rfl
  | succ n ih => simp only [List.replicate_succ, List.countP_cons]; simp [ih]

theorem countP_set_some {α : Type} (v : α) :
    ∀ (l : List (Option α)) (i : Nat), i < l.length → l.getD i none = none →
      (l.set i (some v)).countP (fun s => s.isSome) = l.countP (fun s => s.isSome) + 1 := by
  intro l
  induction l with
  | nil => intro i hi _; simp at hi
  | cons a t ih =>
    intro i hi hg
    cases i with
    | zero =>
      have ha : a = none := by simpa using hg
      subst ha
      simp [List.countP_cons]
    | succ i =>
      have hg' : t.getD i none = none := by simpa using hg
      have := ih i (by simpa using hi) hg'
      simp [List.countP_cons, this]
      omega

theorem countP_set_none {α : Type} (v : α) :
    ∀ (l : List (Option α)) (i : Nat), l.getD i none = some v →
      l.countP (fun s => s.isSome) = (l.set i none).countP (fun s => s.isSome) + 1 := by
  intro l
  induction l with
  | nil => intro i h; simp [List.getD] at h
  | cons a t ih =>
    intro i hg
    cases i with
    | zero =>
      have ha : a = some v := by simpa using hg
      subst ha
      simp [List.countP_cons]
    | succ i =>
      have hg' : t.getD i none = some v := by simpa using hg
      have := ih i hg'
      simp [List.countP_cons, this]
      omega

theorem eq_replicate_none_of_getD {α : Type} :
    ∀ (l : List (Option α)), (∀ i, i < l.length → l.getD i none = none) →
      l = List.replicate l.length none := by
  intro l
  induction l with
  | nil => intro _; rfl
  | cons a t ih =>
    intro h
    have ha : a = none := by simpa using h 0 (by simp)
    have ht : t = List.replicate t.length none :=
      ih (fun i hi => by simpa using h (i + 1) (by simpa using hi))
    rw [List.length_cons, List.replicate_succ, ha, ← ht]

theorem wrap_eq_mod {n w : Nat} (hw : w < n) :
    (if w + 1 = n then 0 else w + 1) = (w + 1) % n := by
  by_cases h : w + 1 = n
  · simp [h, Nat.mod_self]
  · rw [if_neg h, Nat.mod_eq_of_lt (lt_of_le_of_ne hw h)]

theorem add_mod_inj {n p i k : Nat} (hi : i < n) (hk : k < n)
    (h : (p + i) % n = (p + k) % n) : i = k := by
  have h2 : i % n = k % n := Nat.ModEq.add_left_cancel' p h
  rwa [Nat.mod_eq_of_lt hi, Nat.mod_eq_of_lt hk] at h2

theorem arc_snoc {α : Type} (N : Nat) (slots : List (Option α)) :
    ∀ (k r : Nat), arc N slots r (k + 1)
      = arc N slots r k ++ [slots.getD ((r + k) % N) none] := by
  intro k
  induction k with
  | zero => intro r; simp [arc]
  | succ k ih =>
    intro r
    show slots.getD (r % N) none :: arc N slots (r + 1) (k + 1) = _
    rw [ih (r + 1)]
    have : r + 1 + k = r + (k + 1) := by omega
    simp [arc, this]

theorem arc_set_outside {α : Type} (N : Nat) (slots : List (Option α)) (j : Nat) (x : Option α) :
    ∀ (k r : Nat), (∀ i, i < k → (r + i) % N ≠ j) →
      arc N (slots.set j x) r k = arc N slots r k := by
  intro k
  induction k with
  | zero => intro r _; rfl
  | succ k ih =>
    intro r h
    show (slots.set j x).getD (r % N) none :: _ = slots.getD (r % N) none :: _
    have h0 : j ≠ r % N := by
      have := h 0 (by omega)
      simpa using fun hh => this hh.symm
    rw [getD_set_ne _ _ _ _ _ h0, ih (r + 1) (fun i hi => by
      have := h (i + 1) (by omega)
      have he : r + 1 + i = r + (i + 1) := by omega
      rwa [he])]

/-! Shape lemmas: the exact outcome of each operation in each case. -/

theorem tryWait_of_pos {s : Semaphore} (h : s.value ≠ 0) :
    s.tryWait = Except.ok { s with value := s.value - 1 } := by
  simp [Semaphore.tryWait, h]

theorem tryWait_of_zero {s : Semaphore} (h : s.value = 0) :
    s.tryWait = Except.error SemError.wouldBlock := by
  simp [Semaphore.tryWait, h]

theorem push_wait_error {α : Type} (q : FifoQueueBase α) (e : SemError) (v : α) :
    q.push (Except.error e) v = (some e, q) := rfl

theorem pushMove_wait_error {α : Type} (q : FifoQueueBase α) (e : SemError) (v : α) :
    q.pushMove (Except.error e) v = (some e, q) := rfl

theorem emplace_wait_error {α β : Type} (q : FifoQueueBase α) (e : SemError)
    (construct : β → α) (args : β) :
    q.emplace (Except.error e) construct args = (some e, q) := rfl

theorem pop_wait_error {α : Type} (q : FifoQueueBase α) (e : SemError) (d : α) :
    q.pop (Except.error e) d = (some e, d, q) := rfl

theorem pushMove_eq_push {α : Type} (q : FifoQueueBase α)
    (wr : Except SemError Semaphore) (v : α) : q.pushMove wr v = q.push wr v := rfl

theorem emplace_eq_push {α β : Type} (q : FifoQueueBase α)
    (wr : Except SemError Semaphore) (construct : β → α) (args : β) :
    q.emplace wr construct args = q.push wr (construct args) := by
  cases wr with
  | error e => rfl
  | ok s =>
    unfold FifoQueueBase.emplace FifoQueueBase.push FifoQueueBase.pushImplementation
      FifoQueueBase.popPushImplementation BoundedFunctor emplaceConstructAt copyConstructAt
    rcases h : q.popSemaphore_.post with e | s2 <;> simp [h]

theorem push_ok_eq {α : Type} (q : FifoQueueBase α) (s' : Semaphore) (v : α)
    (h1 : ¬ q.popSemaphore_.maxValue ≤ q.popSemaphore_.value) :
    q.push (Except.ok s') v = (none,
      { q with pushSemaphore_ := s',
               popSemaphore_ := { q.popSemaphore_ with value := q.popSemaphore_.value + 1 },
               writePosition_ := if q.writePosition_ + 1 = q.storageEnd_ then q.storageBegin_
                 else q.writePosition_ + 1,
               slots := q.slots.set q.writePosition_ (some v) }) := by
  unfold FifoQueueBase.push FifoQueueBase.pushImplementation
    FifoQueueBase.popPushImplementation Semaphore.post BoundedFunctor copyConstructAt
  simp [h1]

theorem pop_ok_eq {α : Type} (q : FifoQueueBase α) (s' : Semaphore) (d : α)
    (h1 : ¬ q.pushSemaphore_.maxValue ≤ q.pushSemaphore_.value) :
    q.pop (Except.ok s') d = (none,
      (swapAndDestroyAt d (q.slots.getD q.readPosition_ none)).1,
      { q with popSemaphore_ := s',
               pushSemaphore_ := { q.pushSemaphore_ with value := q.pushSemaphore_.value + 1 },
               readPosition_ := if q.readPosition_ + 1 = q.storageEnd_ then q.storageBegin_
                 else q.readPosition_ + 1,
               slots := q.slots.set q.readPosition_ none }) := by
  unfold FifoQueueBase.pop FifoQueueBase.popImplementation
    FifoQueueBase.popPushImplementation Semaphore.post BoundedFunctor swapAndDestroyAt
  simp [h1]

theorem tryPush_ok_eq {α : Type} (q : FifoQueueBase α) (v : α)
    (h0 : q.pushSemaphore_.value ≠ 0)
    (h1 : ¬ q.popSemaphore_.maxValue ≤ q.popSemaphore_.value) :
    q.tryPush v = (none,
      { q with pushSemaphore_ := { q.pushSemaphore_ with value := q.pushSemaphore_.value - 1 },
               popSemaphore_ := { q.popSemaphore_ with value := q.popSemaphore_.value + 1 },
               writePosition_ := if q.writePosition_ + 1 = q.storageEnd_ then q.storageBegin_
                 else q.writePosition_ + 1,
               slots := q.slots.set q.writePosition_ (some v) }) := by
  rw [FifoQueueBase.tryPush, tryWait_of_pos h0, push_ok_eq q _ v h1]

theorem tryPop_ok_eq {α : Type} (q : FifoQueueBase α) (d : α)
    (h0 : q.popSemaphore_.value ≠ 0)
    (h1 : ¬ q.pushSemaphore_.maxValue ≤ q.pushSemaphore_.value) :
    q.tryPop d = (none,
      (swapAndDestroyAt d (q.slots.getD q.readPosition_ none)).1,
      { q with popSemaphore_ := { q.popSemaphore_ with value := q.popSemaphore_.value - 1 },
               pushSemaphore_ := { q.pushSemaphore_ with value := q.pushSemaphore_.value + 1 },
               readPosition_ := if q.readPosition_ + 1 = q.storageEnd_ then q.storageBegin_
                 else q.readPosition_ + 1,
               slots := q.slots.set q.readPosition_ none }) := by
  rw [FifoQueueBase.tryPop, tryWait_of_pos h0, pop_ok_eq q _ d h1]

theorem inv_construct (α : Type) (N : Nat) :
    Inv N ([] : List α) [] (FifoQueueBase.construct α N) := by
  refine ⟨?_, rfl, rfl, rfl, rfl, ?_, rfl, rfl, ?_, ?_, rfl, ?_, ?_⟩
  · simp [FifoQueueBase.construct]
  · simp
  · simp [FifoQueueBase.construct]
  · simp [FifoQueueBase.construct]
  · intro i _ _
    exact getD_replicate_none N i
  · show (List.replicate N none).countP _ = 0
    exact countP_replicate_none N

/-! The invariant is preserved by every operation. -/

theorem inv_push_state {α : Type} {N : Nat} {popped pending : List α} {q : FifoQueueBase α}
    (hInv : Inv N popped pending q) (hlt : pending.length < N) (v : α) :
    Inv N popped (pending ++ [v])
      { q with pushSemaphore_ := { q.pushSemaphore_ with value := q.pushSemaphore_.value - 1 },
               popSemaphore_ := { q.popSemaphore_ with value := q.popSemaphore_.value + 1 },
               writePosition_ := if q.writePosition_ + 1 = q.storageEnd_ then q.storageBegin_
                 else q.writePosition_ + 1,
               slots := q.slots.set q.writePosition_ (some v) } := by
  obtain ⟨hlen, hbegin, hend, hpopMax, hpushMax, hpendLe, hpopVal, hpushVal, hread, hwrite,
    hcontent, hfree, hcount⟩ := hInv
  have hN : 0 < N := Nat.lt_of_le_of_lt (Nat.zero_le _) hlt
  have hW : (popped.length + pending.length) % N < N := Nat.mod_lt _ hN
  have hWne : ∀ t, t < pending.length →
      (popped.length + pending.length) % N ≠ (popped.length + t) % N := fun t ht heq =>
    absurd (add_mod_inj hlt (Nat.lt_of_lt_of_le ht (Nat.le_of_lt hlt)) heq) (by omega)
  have hgW : q.slots.getD ((popped.length + pending.length) % N) none = none :=
    hfree _ hW hWne
  have hlen1 : (pending ++ [v]).length = pending.length + 1 := by simp
  refine ⟨?_, hbegin, hend, hpopMax, hpushMax, ?_, ?_, ?_, hread, ?_, ?_, ?_, ?_⟩
  · show (q.slots.set q.writePosition_ (some v)).length = N
    rw [List.length_set]; exact hlen
  · rw [hlen1]; omega
  · show q.popSemaphore_.value + 1 = (pending ++ [v]).length
    rw [hlen1, hpopVal]
  · show q.pushSemaphore_.value - 1 = N - (pending ++ [v]).length
    rw [hlen1, hpushVal]; omega
  · show (if q.writePosition_ + 1 = q.storageEnd_ then q.storageBegin_
      else q.writePosition_ + 1) = (popped.length + (pending ++ [v]).length) % N
    rw [hwrite, hend, hbegin, hlen1, wrap_eq_mod hW, Nat.mod_add_mod, ← Nat.add_assoc]
  · show arc N (q.slots.set q.writePosition_ (some v)) popped.length (pending ++ [v]).length
      = (pending ++ [v]).map some
    rw [hwrite, hlen1, arc_snoc,
      arc_set_outside N q.slots _ (some v) pending.length popped.length
        (fun i hi => (hWne i hi).symm),
      hcontent, getD_set_self _ _ _ _ (by rw [hlen]; exact hW)]
    simp
  · intro i hi hcond
    rw [hlen1] at hcond
    show (q.slots.set q.writePosition_ (some v)).getD i none = none
    rw [hwrite]
    have hiW : (popped.length + pending.length) % N ≠ i := fun h =>
      hcond pending.length (by omega) h.symm
    rw [getD_set_ne _ _ _ _ _ hiW]
    exact hfree i hi (fun t ht => hcond t (by omega))
  · show (q.slots.set q.writePosition_ (some v)).countP (fun s => s.isSome)
      = (pending ++ [v]).length
    rw [hwrite, hlen1, countP_set_some v q.slots _ (by rw [hlen]; exact hW) hgW, hcount]

theorem push_succeeds {α : Type} {N : Nat} {popped pending : List α} {q : FifoQueueBase α}
    (hInv : Inv N popped pending q) (hlt : pending.length < N) (v : α) :
    (q.tryPush v).1 = none ∧ Inv N popped (pending ++ [v]) (q.tryPush v).2 := by
  have h0 : q.pushSemaphore_.value ≠ 0 := by
    have := hInv.hpushVal; omega
  have h1 : ¬ q.popSemaphore_.maxValue ≤ q.popSemaphore_.value := by
    have := hInv.hpopVal; have := hInv.hpopMax; omega
  rw [tryPush_ok_eq q v h0 h1]
  exact ⟨rfl, inv_push_state hInv hlt v⟩

theorem inv_pop_state {α : Type} {N : Nat} {popped : List α} {v : α} {pending : List α}
    {q : FifoQueueBase α} (hInv : Inv N popped (v :: pending) q) :
    Inv N (popped ++ [v]) pending
      { q with popSemaphore_ := { q.popSemaphore_ with value := q.popSemaphore_.value - 1 },
               pushSemaphore_ := { q.pushSemaphore_ with value := q.pushSemaphore_.value + 1 },
               readPosition_ := if q.readPosition_ + 1 = q.storageEnd_ then q.storageBegin_
                 else q.readPosition_ + 1,
               slots := q.slots.set q.readPosition_ none } := by
  obtain ⟨hlen, hbegin, hend, hpopMax, hpushMax, hpendLe, hpopVal, hpushVal, hread, hwrite,
    hcontent, hfree, hcount⟩ := hInv
  have hpend1 : (v :: pending).length = pending.length + 1 := rfl
  rw [hpend1] at hpendLe hpopVal hpushVal hwrite hcontent
  have hN : 0 < N := by omega
  have hR : popped.length % N < N := Nat.mod_lt _ hN
  obtain ⟨hhead, htail⟩ : q.slots.getD (popped.length % N) none = some v ∧
      arc N q.slots (popped.length + 1) pending.length = pending.map some := by
    have h := hcontent
    rw [show arc N q.slots popped.length (pending.length + 1)
        = q.slots.getD (popped.length % N) none
          :: arc N q.slots (popped.length + 1) pending.length from rfl] at h
    simpa using h
  have hlen1 : (popped ++ [v]).length = popped.length + 1 := by simp
  refine ⟨?_, hbegin, hend, hpopMax, hpushMax, ?_, ?_, ?_, ?_, ?_, ?_, ?_, ?_⟩
  · show (q.slots.set q.readPosition_ none).length = N
    rw [List.length_set]; exact hlen
  · omega
  · show q.popSemaphore_.value - 1 = pending.length
    omega
  · show q.pushSemaphore_.value + 1 = N - pending.length
    omega
  · show (if q.readPosition_ + 1 = q.storageEnd_ then q.storageBegin_
      else q.readPosition_ + 1) = (popped ++ [v]).length % N
    rw [hread, hend, hbegin, hlen1, wrap_eq_mod hR, Nat.mod_add_mod]
  · show q.writePosition_ = ((popped ++ [v]).length + pending.length) % N
    rw [hwrite, hlen1]
    congr 1
    omega
  · show arc N (q.slots.set q.readPosition_ none) (popped ++ [v]).length pending.length
      = pending.map some
    rw [hread, hlen1,
      arc_set_outside N q.slots _ none pending.length (popped.length + 1)
        (fun i hi heq => by
          have h1i : popped.length + 1 + i = popped.length + (1 + i) := by omega
          have h10 : popped.length % N = (popped.length + 0) % N := by rw [Nat.add_zero]
          rw [h1i, h10] at heq
          exact absurd (add_mod_inj (by omega) hN heq) (by omega)),
      htail]
  · intro i hi hcond
    rw [hlen1] at hcond
    show (q.slots.set q.readPosition_ none).getD i none = none
    rw [hread]
    by_cases hip : i = popped.length % N
    · rw [hip, getD_set_self _ _ _ _ (by rw [hlen]; exact hR)]
    · rw [getD_set_ne _ _ _ _ _ (fun h => hip h.symm)]
      refine hfree i hi (fun t ht => ?_)
      cases t with
      | zero => rw [Nat.add_zero]; exact fun h => hip h
      | succ t =>
        have h1t : popped.length + (t + 1) = popped.length + 1 + t := by omega
        rw [h1t]
        exact hcond t (by omega)
  · show (q.slots.set q.readPosition_ none).countP (fun s => s.isSome) = pending.length
    rw [hread]
    have := countP_set_none v q.slots (popped.length % N) hhead
    omega

theorem pop_succeeds {α : Type} {N : Nat} {popped : List α} {v : α} {pending : List α}
    {q : FifoQueueBase α} (hInv : Inv N popped (v :: pending) q) (d : α) :
    (q.tryPop d).1 = none ∧ (q.tryPop d).2.1 = v ∧
      Inv N (popped ++ [v]) pending (q.tryPop d).2.2 := by
  have h0 : q.popSemaphore_.value ≠ 0 := by
    have := hInv.hpopVal; simp at this; omega
  have h1 : ¬ q.pushSemaphore_.maxValue ≤ q.pushSemaphore_.value := by
    have h2 := hInv.hpushVal
    have h3 := hInv.hpushMax
    have h4 := hInv.hpendLe
    simp at h2 h4
    omega
  have hhead : q.slots.getD q.readPosition_ none = some v := by
    have h := hInv.hcontent
    rw [show arc N q.slots popped.length (v :: pending).length
        = q.slots.getD (popped.length % N) none
          :: arc N q.slots (popped.length + 1) pending.length from rfl] at h
    rw [hInv.hread]
    exact (List.cons.injEq _ _ _ _ ▸ h).1
  rw [tryPop_ok_eq q d h0 h1, hhead]
  exact ⟨rfl, rfl, inv_pop_state hInv⟩

theorem tryPush_full {α : Type} {N : Nat} {popped pending : List α} {q : FifoQueueBase α}
    (hInv : Inv N popped pending q) (h : pending.length = N) (v : α) :
    q.tryPush v = (some SemError.wouldBlock, q) := by
  have h0 : q.pushSemaphore_.value = 0 := by rw [hInv.hpushVal, h]; omega
  rw [FifoQueueBase.tryPush, tryWait_of_zero h0, push_wait_error]

theorem tryPop_empty {α : Type} {N : Nat} {popped : List α} {q : FifoQueueBase α}
    (hInv : Inv N popped [] q) (d : α) :
    q.tryPop d = (some SemError.wouldBlock, d, q) := by
  have h0 : q.popSemaphore_.value = 0 := by simpa using hInv.hpopVal
  rw [FifoQueueBase.tryPop, tryWait_of_zero h0, pop_wait_error]

/-! Trace-level lemmas. -/

theorem runTraceAux_inv {α : Type} (d : α) (N : Nat) :
    ∀ (ops : List (Op α)) (q : FifoQueueBase α) (popped pending : List α),
      Inv N popped pending q →
      ∃ pending',
        Inv N (runTraceAux d ops q (popped ++ pending) popped).2.2 pending'
          (runTraceAux d ops q (popped ++ pending) popped).1 ∧
        (runTraceAux d ops q (popped ++ pending) popped).2.1
          = (runTraceAux d ops q (popped ++ pending) popped).2.2 ++ pending' := by
  intro ops
  induction ops with
  | nil => intro q popped pending hInv; exact ⟨pending, hInv, rfl⟩
  | cons op ops ih =>
    intro q popped pending hInv
    cases op with
    | push v =>
      by_cases hlt : pending.length < N
      · obtain ⟨hres, hInv'⟩ := push_succeeds hInv hlt v
        simp only [runTraceAux, hres, if_pos]
        rw [List.append_assoc]
        exact ih (q.tryPush v).2 popped (pending ++ [v]) hInv'
      · have hfull : pending.length = N := by have := hInv.hpendLe; omega
        have heq := tryPush_full hInv hfull v
        simp only [runTraceAux, heq]
        simp only [reduceCtorEq, if_neg]
        exact ih q popped pending hInv
    | pop =>
      cases pending with
      | nil =>
        have heq := tryPop_empty hInv d
        simp only [runTraceAux, heq]
        simp only [reduceCtorEq, if_neg]
        exact ih q popped [] hInv
      | cons v rest =>
        obtain ⟨hres, hout, hInv'⟩ := pop_succeeds hInv d
        simp only [runTraceAux, hres, hout, if_pos]
        rw [show popped ++ v :: rest = (popped ++ [v]) ++ rest by simp]
        exact ih (q.tryPop d).2.2 (popped ++ [v]) rest hInv'

theorem runTraceAux_append {α : Type} (d : α) :
    ∀ (ops1 ops2 : List (Op α)) (q : FifoQueueBase α) (pushed popped : List α),
      runTraceAux d (ops1 ++ ops2) q pushed popped
        = runTraceAux d ops2 (runTraceAux d ops1 q pushed popped).1
            (runTraceAux d ops1 q pushed popped).2.1
            (runTraceAux d ops1 q pushed popped).2.2 := by
  intro ops1
  induction ops1 with
  | nil => intro ops2 q pushed popped; rfl
  | cons op ops ih =>
    intro ops2 q pushed popped
    cases op with
    | push v =>
      simp only [List.cons_append, runTraceAux]
      exact ih ops2 _ _ _
    | pop =>
      simp only [List.cons_append, runTraceAux]
      exact ih ops2 _ _ _

theorem runTraceAux_pushAll {α : Type} (d : α) (N : Nat) :
    ∀ (vs : List α) (q : FifoQueueBase α) (popped pending : List α),
      Inv N popped pending q → pending.length + vs.length ≤ N →
      (runTraceAux d (vs.map Op.push) q (popped ++ pending) popped).2.2 = popped ∧
      (runTraceAux d (vs.map Op.push) q (popped ++ pending) popped).2.1
        = popped ++ (pending ++ vs) ∧
      Inv N popped (pending ++ vs)
        (runTraceAux d (vs.map Op.push) q (popped ++ pending) popped).1 := by
  intro vs
  induction vs with
  | nil =>
    intro q popped pending hInv _
    exact ⟨rfl, by simp [runTraceAux], by simpa using hInv⟩
  | cons v vs ih =>
    intro q popped pending hInv hle
    have hlt : pending.length < N := by simp at hle; omega
    obtain ⟨hres, hInv'⟩ := push_succeeds hInv hlt v
    simp only [List.map_cons, runTraceAux, hres, if_pos]
    rw [List.append_assoc]
    have hle' : (pending ++ [v]).length + vs.length ≤ N := by simp at hle ⊢; omega
    obtain ⟨h1, h2, h3⟩ := ih (q.tryPush v).2 popped (pending ++ [v]) hInv' hle'
    refine ⟨h1, ?_, ?_⟩
    · rw [h2]; simp
    · have : (pending ++ [v]) ++ vs = pending ++ v :: vs := by simp
      rwa [this] at h3

theorem runTraceAux_popAll {α : Type} (d : α) (N : Nat) :
    ∀ (pending : List α) (q : FifoQueueBase α) (popped : List α),
      Inv N popped pending q →
      (runTraceAux d (List.replicate pending.length Op.pop) q (popped ++ pending) popped).2.2
        = popped ++ pending ∧
      (runTraceAux d (List.replicate pending.length Op.pop) q (popped ++ pending) popped).2.1
        = popped ++ pending ∧
      Inv N (popped ++ pending) []
        (runTraceAux d (List.replicate pending.length Op.pop) q
          (popped ++ pending) popped).1 := by
  intro pending
  induction pending with
  | nil =>
    intro q popped hInv
    exact ⟨by simp [runTraceAux], by simp [runTraceAux],
      by simpa [runTraceAux] using hInv⟩
  | cons v rest ih =>
    intro q popped hInv
    obtain ⟨hres, hout, hInv'⟩ := pop_succeeds hInv d
    simp only [List.length_cons, List.replicate_succ, runTraceAux, hres, hout, if_pos]
    rw [show popped ++ v :: rest = (popped ++ [v]) ++ rest by simp]
    exact ih (q.tryPop d).2.2 (popped ++ [v]) hInv'

/-! Every reachable state satisfies the invariant for some trace decomposition. -/

theorem push_preserves_inv {α : Type} {N : Nat} {q : FifoQueueBase α}
    (wr : Except SemError Semaphore) (v : α) (hw : WaitOutcome q.pushSemaphore_ wr)
    {popped pending : List α} (hInv : Inv N popped pending q) :
    ∃ popped' pending', Inv N popped' pending' (q.push wr v).2 := by
  cases hw with
  | success hpos =>
    have heq : q.push (Except.ok
        { q.pushSemaphore_ with value := q.pushSemaphore_.value - 1 }) v = q.tryPush v := by
      rw [FifoQueueBase.tryPush, tryWait_of_pos (Nat.pos_iff_ne_zero.mp hpos)]
    rw [heq]
    have hlt : pending.length < N := by
      have h1 := hInv.hpushVal
      omega
    exact ⟨popped, pending ++ [v], (push_succeeds hInv hlt v).2⟩
  | wouldBlock h0 => rw [push_wait_error]; exact ⟨popped, pending, hInv⟩
  | timedOut => rw [push_wait_error]; exact ⟨popped, pending, hInv⟩
  | interrupted => rw [push_wait_error]; exact ⟨popped, pending, hInv⟩
  | notPermitted => rw [push_wait_error]; exact ⟨popped, pending, hInv⟩

theorem pop_preserves_inv {α : Type} {N : Nat} {q : FifoQueueBase α}
    (wr : Except SemError Semaphore) (d : α) (hw : WaitOutcome q.popSemaphore_ wr)
    {popped pending : List α} (hInv : Inv N popped pending q) :
    ∃ popped' pending', Inv N popped' pending' (q.pop wr d).2.2 := by
  cases hw with
  | success hpos =>
    have heq : q.pop (Except.ok
        { q.popSemaphore_ with value := q.popSemaphore_.value - 1 }) d = q.tryPop d := by
      rw [FifoQueueBase.tryPop, tryWait_of_pos (Nat.pos_iff_ne_zero.mp hpos)]
    rw [heq]
    cases pending with
    | nil =>
      have h0 := hInv.hpopVal
      simp at h0
      omega
    | cons v rest => exact ⟨popped ++ [v], rest, (pop_succeeds hInv d).2.2⟩
  | wouldBlock h0 => rw [pop_wait_error]; exact ⟨popped, pending, hInv⟩
  | timedOut => rw [pop_wait_error]; exact ⟨popped, pending, hInv⟩
  | interrupted => rw [pop_wait_error]; exact ⟨popped, pending, hInv⟩
  | notPermitted => rw [pop_wait_error]; exact ⟨popped, pending, hInv⟩

theorem reachable_inv {α : Type} {N : Nat} {q : FifoQueueBase α} (h : Reachable N q) :
    ∃ popped pending, Inv N popped pending q := by
  induction h with
  | init => exact ⟨[], [], inv_construct α N⟩
  | pushStep q wr v _ hw ih =>
    obtain ⟨popped, pending, hInv⟩ := ih
    exact push_preserves_inv wr v hw hInv
  | pushMoveStep q wr v _ hw ih =>
    obtain ⟨popped, pending, hInv⟩ := ih
    rw [pushMove_eq_push]
    exact push_preserves_inv wr v hw hInv
  | emplaceStep q wr construct args _ hw ih =>
    obtain ⟨popped, pending, hInv⟩ := ih
    rw [emplace_eq_push]
    exact push_preserves_inv wr (construct args) hw hInv
  | popStep q wr d _ hw ih =>
    obtain ⟨popped, pending, hInv⟩ := ih
    exact pop_preserves_inv wr d hw hInv

theorem post_error_overflow {s : Semaphore} {e : SemError}
    (hp : s.post = Except.error e) : e = SemError.overflow := by
  unfold Semaphore.post at hp
  by_cases hc : s.maxValue ≤ s.value
  · rw [if_pos hc] at hp
    have := (Except.error.injEq _ _).mp hp
    exact this.symm
  · rw [if_neg hc] at hp
    exact absurd hp (by simp)

theorem popPush_result_wait_error {σ α : Type} (sb se : Nat) (e : SemError)
    (f : SlotFunctor σ α) (env : σ) (ws ps : Semaphore) (st : Nat)
    (sl : List (Option α)) :
    FifoQueueBase.popPushImplementation sb se (Except.error e) f env ws ps st sl
      = ⟨some e, env, ws, ps, st, sl⟩ := rfl

theorem popPush_result_post_error {σ α : Type} {ps : Semaphore} {e : SemError}
    (hp : ps.post = Except.error e) (sb se : Nat) (s : Semaphore)
    (f : SlotFunctor σ α) (env : σ) (ws : Semaphore) (st : Nat)
    (sl : List (Option α)) :
    (FifoQueueBase.popPushImplementation sb se (Except.ok s) f env ws ps st sl).result
      = some e := by
  simp [FifoQueueBase.popPushImplementation, hp]

theorem popPush_result_post_ok {σ α : Type} {ps s2 : Semaphore}
    (hp : ps.post = Except.ok s2) (sb se : Nat) (s : Semaphore)
    (f : SlotFunctor σ α) (env : σ) (ws : Semaphore) (st : Nat)
    (sl : List (Option α)) :
    (FifoQueueBase.popPushImplementation sb se (Except.ok s) f env ws ps st sl).result
      = none := by
  simp [FifoQueueBase.popPushImplementation, hp]

theorem eq_construct_of_inv {α : Type} {N : Nat} {popped : List α} {q : FifoQueueBase α}
    (hInv : Inv N popped [] q) (hmod : popped.length % N = 0) :
    q = FifoQueueBase.construct α N := by
  obtain ⟨hlen, hbegin, hend, hpopMax, hpushMax, _, hpopVal, hpushVal, hread, hwrite, _,
    hfree, _⟩ := hInv
  have hslots : q.slots = List.replicate N none := by
    have h := eq_replicate_none_of_getD q.slots
      (fun i hi => hfree i (by rwa [hlen] at hi) (fun t ht => absurd ht (by simp)))
    rwa [hlen] at h
  apply FifoQueueBase.ext
  · apply Semaphore.ext
    · rw [hpopVal]; rfl
    · rw [hpopMax]; rfl
  · apply Semaphore.ext
    · rw [hpushVal]; rfl
    · rw [hpushMax]; rfl
  · rw [hbegin]; rfl
  · rw [hend]; rfl
  · rw [hread]; exact hmod
  · rw [hwrite]
    have h2 : (popped.length + List.length ([] : List α)) % N = popped.length % N := by simp
    rw [h2]; exact hmod
  · rw [hslots]; rfl

/-! The claims. -/

/-- C1: for every sequence of queue operations run against a fresh queue (a
single-producer single-consumer trace, modelled as a sequential interleaving
of completed non-blocking pushes and pops), the sequence of successfully
popped values equals the prefix of the sequence of successfully pushed
values of the same length — the k-th successful pop returns the k-th
successfully pushed value (end-to-end FIFO). -/
theorem fifo_trace_order {α : Type} (N : Nat) (d : α) (ops : List (Op α)) :
    (runTrace N d ops).2.2
      = (runTrace N d ops).2.1.take (runTrace N d ops).2.2.length := by
  obtain ⟨pending', hInv, hEq⟩ := runTraceAux_inv d N ops (FifoQueueBase.construct α N) [] []
    (inv_construct α N)
  simp only [List.nil_append] at hEq
  show (runTraceAux d ops (FifoQueueBase.construct α N) [] []).2.2
    = (runTraceAux d ops (FifoQueueBase.construct α N) [] []).2.1.take
        (runTraceAux d ops (FifoQueueBase.construct α N) [] []).2.2.length
  rw [hEq]
  exact (List.take_left _ _).symm

/-- C2: every push and pop returns 0 (modelled as `none`) exactly when both
the initial wait and the final post succeed; otherwise it returns the
underlying semaphore's error code unchanged — the queue introduces no error
code of its own — and whenever the initial wait (step 1) fails, the
operation returns that error with the position pointers, the slot contents
and both semaphore values untouched. Stated for the shared
`popPushImplementation` and for each push/pop entry point. -/
theorem push_pop_error_propagation {σ α β : Type} (sb se : Nat)
    (wr : Except SemError Semaphore) (functor : SlotFunctor σ α) (env : σ)
    (ws ps : Semaphore) (st : Nat) (sl : List (Option α))
    (q : FifoQueueBase α) (v d : α) (construct : β → α) (args : β) :
    ((FifoQueueBase.popPushImplementation sb se wr functor env ws ps st sl).result = none
      ↔ (∃ s, wr = Except.ok s) ∧ ∃ s2, ps.post = Except.ok s2)
    ∧ (∀ e, (FifoQueueBase.popPushImplementation sb se wr functor env ws ps st sl).result
          = some e → wr = Except.error e ∨ ps.post = Except.error e)
    ∧ (∀ e, wr = Except.error e →
        FifoQueueBase.popPushImplementation sb se wr functor env ws ps st sl
          = ⟨some e, env, ws, ps, st, sl⟩)
    ∧ (∀ e, wr = Except.error e → q.push wr v = (some e, q))
    ∧ (∀ e, wr = Except.error e → q.pushMove wr v = (some e, q))
    ∧ (∀ e, wr = Except.error e → q.emplace wr construct args = (some e, q))
    ∧ (∀ e, wr = Except.error e → q.pop wr d = (some e, d, q)) := by
  refine ⟨?_, ?_, ?_, ?_, ?_, ?_, ?_⟩
  · cases wr with
    | error e =>
      rw [popPush_result_wait_error]
      constructor
      · intro h; exact absurd h (by simp)
      · rintro ⟨⟨s, hs⟩, -⟩; exact absurd hs (by simp)
    | ok s =>
      rcases hp : ps.post with e | s2
      · rw [popPush_result_post_error hp]
        constructor
        · intro h; exact absurd h (by simp)
        · rintro ⟨-, s2, hs2⟩; exact absurd hs2 (by simp)
      · rw [popPush_result_post_ok hp]
        exact ⟨fun _ => ⟨⟨s, rfl⟩, ⟨s2, rfl⟩⟩, fun _ => rfl⟩
  · intro e h
    cases wr with
    | error e2 =>
      rw [popPush_result_wait_error] at h
      left
      rw [(Option.some.injEq _ _).mp h]
    | ok s =>
      rcases hp : ps.post with e2 | s2
      · rw [popPush_result_post_error hp] at h
        right
        rw [(Option.some.injEq _ _).mp h]
      · rw [popPush_result_post_ok hp] at h
        exact absurd h (by simp)
  · intro e h; subst h; rfl
  · intro e h; subst h; exact push_wait_error q e v
  · intro e h; subst h; exact pushMove_wait_error q e v
  · intro e h; subst h; exact emplace_wait_error q e construct args
  · intro e h; subst h; exact pop_wait_error q e d

/-- C2 witness: a concrete interrupted wait propagates unchanged and leaves
everything untouched, both at the protocol level and through `push`. -/
theorem push_pop_error_propagation_witness :
    FifoQueueBase.popPushImplementation 0 1 (Except.error SemError.interrupted)
        (BoundedFunctor copyConstructAt) (7 : Nat) ⟨1, 1⟩ ⟨0, 1⟩ 0 [none]
      = ⟨some SemError.interrupted, 7, ⟨1, 1⟩, ⟨0, 1⟩, 0, [none]⟩
    ∧ (FifoQueueBase.construct Nat 1).push (Except.error SemError.interrupted) 7
      = (some SemError.interrupted, FifoQueueBase.construct Nat 1) := by
  constructor
  · exact (push_pop_error_propagation 0 1 (Except.error SemError.interrupted)
      (BoundedFunctor copyConstructAt) 7 ⟨1, 1⟩ ⟨0, 1⟩ 0 [none]
      (FifoQueueBase.construct Nat 1) 7 7 id 3).2.2.1 SemError.interrupted rfl
  · exact (push_pop_error_propagation 0 1 (Except.error SemError.interrupted)
      (BoundedFunctor copyConstructAt) 7 ⟨1, 1⟩ ⟨0, 1⟩ 0 [none]
      (FifoQueueBase.construct Nat 1) 7 7 id 3).2.2.2.1 SemError.interrupted rfl

/-- C3: in every reachable state with no operation mid-protocol (in the
sequential model every completed-operation state is such a quiescent state),
the pop-semaphore's value plus the push-semaphore's value equals the
capacity `N`, and the number of initialized slots equals the pop-semaphore's
value. -/
theorem quiescent_semaphore_invariant {α : Type} (N : Nat) (q : FifoQueueBase α)
    (h : Reachable N q) :
    q.popSemaphore_.value + q.pushSemaphore_.value = N
    ∧ q.countInitialized = q.popSemaphore_.value := by
  obtain ⟨popped, pending, hInv⟩ := reachable_inv h
  have h1 := hInv.hpopVal
  have h2 := hInv.hpushVal
  have h3 := hInv.hpendLe
  have h4 := hInv.hcount
  constructor
  · omega
  · show q.slots.countP (fun s => s.isSome) = q.popSemaphore_.value
    rw [h4, h1]

/-- C3 witness: the invariant at the freshly constructed queue of
capacity 1. -/
theorem quiescent_semaphore_invariant_witness :
    Reachable 1 (FifoQueueBase.construct Nat 1)
    ∧ ((FifoQueueBase.construct Nat 1).popSemaphore_.value
        + (FifoQueueBase.construct Nat 1).pushSemaphore_.value = 1
      ∧ (FifoQueueBase.construct Nat 1).countInitialized
        = (FifoQueueBase.construct Nat 1).popSemaphore_.value) :=
  ⟨Reachable.init, quiescent_semaphore_invariant 1 (FifoQueueBase.construct Nat 1)
    Reachable.init⟩

/-- C4: for every element type and capacity `N`, construction yields exactly
this state: the pop-semaphore has value 0 and maximum `N`, the
push-semaphore has value `N` and maximum `N`, both the read position and the
write position equal the beginning of the storage region, the region spans
`N` slots, and no element objects exist in storage. -/
theorem construct_initial_state (α : Type) (N : Nat) :
    (FifoQueueBase.construct α N).popSemaphore_ = ⟨0, N⟩
    ∧ (FifoQueueBase.construct α N).pushSemaphore_ = ⟨N, N⟩
    ∧ (FifoQueueBase.construct α N).readPosition_
        = (FifoQueueBase.construct α N).storageBegin_
    ∧ (FifoQueueBase.construct α N).writePosition_
        = (FifoQueueBase.construct α N).storageBegin_
    ∧ (FifoQueueBase.construct α N).storageEnd_
        = (FifoQueueBase.construct α N).storageBegin_ + N
    ∧ (FifoQueueBase.construct α N).countInitialized = 0 :=
  ⟨rfl, rfl, rfl, rfl, (Nat.zero_add N).symm, by
    show (List.replicate N none).countP (fun s => s.isSome) = 0
    exact countP_replicate_none N⟩

/-- C5: in every state of a positive-capacity queue reached by completed
operations — in particular after every successful push or pop — both
position indices lie within the storage region `[begin, end)` and the ring
hosts exactly `N` slots (slot-boundary alignment is inherent to the
slot-index embedding of the stride-based pointer walk, and the wrap
discipline of `popPushImplementation` is what keeps the positions below
`end`). -/
theorem positions_within_ring {α : Type} (N : Nat) (q : FifoQueueBase α)
    (h : Reachable N q) (hN : 0 < N) :
    q.storageBegin_ ≤ q.readPosition_ ∧ q.readPosition_ < q.storageEnd_
    ∧ q.storageBegin_ ≤ q.writePosition_ ∧ q.writePosition_ < q.storageEnd_
    ∧ q.storageEnd_ - q.storageBegin_ = N ∧ q.slots.length = N := by
  obtain ⟨popped, pending, hInv⟩ := reachable_inv h
  refine ⟨?_, ?_, ?_, ?_, ?_, hInv.hlen⟩
  · rw [hInv.hbegin]; omega
  · rw [hInv.hread, hInv.hend]; exact Nat.mod_lt _ hN
  · rw [hInv.hbegin]; omega
  · rw [hInv.hwrite, hInv.hend]; exact Nat.mod_lt _ hN
  · rw [hInv.hbegin, hInv.hend]; omega

/-- C5 witness: the bounds at the freshly constructed queue of capacity 1. -/
theorem positions_within_ring_witness :
    Reachable 1 (FifoQueueBase.construct Nat 1) ∧ 0 < 1
    ∧ ((FifoQueueBase.construct Nat 1).storageBegin_
        ≤ (FifoQueueBase.construct Nat 1).readPosition_
      ∧ (FifoQueueBase.construct Nat 1).readPosition_
        < (FifoQueueBase.construct Nat 1).storageEnd_
      ∧ (FifoQueueBase.construct Nat 1).storageBegin_
        ≤ (FifoQueueBase.construct Nat 1).writePosition_
      ∧ (FifoQueueBase.construct Nat 1).writePosition_
        < (FifoQueueBase.construct Nat 1).storageEnd_
      ∧ (FifoQueueBase.construct Nat 1).storageEnd_
        - (FifoQueueBase.construct Nat 1).storageBegin_ = 1
      ∧ (FifoQueueBase.construct Nat 1).slots.length = 1) :=
  ⟨Reachable.init, Nat.one_pos,
    positions_within_ring 1 (FifoQueueBase.construct Nat 1) Reachable.init Nat.one_pos⟩

/-- C6: from every reachable state holding at least one initialized slot, a
successful pop exchanges the value of the oldest slot (the one at the read
position) into the caller's out-parameter and destroys the value remaining
in that slot: the out-parameter receives exactly the slot's pre-destruction
value (the swap's effect is complete before the destruction runs), the slot
becomes uninitialized, and no other slot changes — so the in-slot value is
destroyed exactly once. -/
theorem pop_swap_and_destroy_oldest {α : Type} (N : Nat) (q : FifoQueueBase α) (out : α)
    (h : Reachable N q) (hne : 0 < q.popSemaphore_.value) :
    ∃ v, q.slots.getD q.readPosition_ none = some v
      ∧ (q.tryPop out).1 = none
      ∧ (q.tryPop out).2.1 = v
      ∧ (q.tryPop out).2.2.slots = q.slots.set q.readPosition_ none := by
  obtain ⟨popped, pending, hInv⟩ := reachable_inv h
  cases pending with
  | nil =>
    rw [hInv.hpopVal] at hne
    exact absurd hne (by simp)
  | cons v rest =>
    obtain ⟨hres, hout, hInv2⟩ := pop_succeeds hInv out
    refine ⟨v, ?_, hres, hout, ?_⟩
    · have hc := hInv.hcontent
      rw [show arc N q.slots popped.length (v :: rest).length
          = q.slots.getD (popped.length % N) none
            :: arc N q.slots (popped.length + 1) rest.length from rfl] at hc
      rw [hInv.hread]
      exact (List.cons.injEq _ _ _ _ ▸ hc).1
    · have h0 : q.popSemaphore_.value ≠ 0 := by omega
      have h1 : ¬ q.pushSemaphore_.maxValue ≤ q.pushSemaphore_.value := by
        have h2 := hInv.hpushVal
        have h3 := hInv.hpushMax
        have h4 := hInv.hpendLe
        simp at h2 h4
        omega
      rw [tryPop_ok_eq q out h0 h1]

/-- C6 witness: popping the single element 7 out of a reachable one-element
queue of capacity 1, with out-parameter 5. -/
theorem pop_swap_and_destroy_oldest_witness :
    0 < ((FifoQueueBase.construct Nat 1).push (Except.ok ⟨0, 1⟩) 7).2.popSemaphore_.value
    ∧ ∃ v, (((FifoQueueBase.construct Nat 1).push (Except.ok ⟨0, 1⟩) 7).2.slots.getD
          ((FifoQueueBase.construct Nat 1).push (Except.ok ⟨0, 1⟩) 7).2.readPosition_ none
        = some v
      ∧ (((FifoQueueBase.construct Nat 1).push (Except.ok ⟨0, 1⟩) 7).2.tryPop 5).1 = none
      ∧ (((FifoQueueBase.construct Nat 1).push (Except.ok ⟨0, 1⟩) 7).2.tryPop 5).2.1 = v
      ∧ (((FifoQueueBase.construct Nat 1).push (Except.ok ⟨0, 1⟩) 7).2.tryPop 5).2.2.slots
        = ((FifoQueueBase.construct Nat 1).push (Except.ok ⟨0, 1⟩) 7).2.slots.set
            ((FifoQueueBase.construct Nat 1).push (Except.ok ⟨0, 1⟩) 7).2.readPosition_
            none) :=
  ⟨by decide,
    pop_swap_and_destroy_oldest 1 ((FifoQueueBase.construct Nat 1).push
        (Except.ok ⟨0, 1⟩) 7).2 5
      (Reachable.pushStep (FifoQueueBase.construct Nat 1) (Except.ok ⟨0, 1⟩) 7
        Reachable.init (WaitOutcome.success (by decide)))
      (by decide)⟩

/-- C7: the typed facade supplies the four per-slot actions — copy-push
copy-constructs the element into the slot from a const reference, move-push
move-constructs it from an rvalue, emplace-push constructs it in place from
constructor arguments, swap-pop exchanges the slot's value with the caller's
out-parameter and destroys the value left behind — and the
`push`/`pushMove`/`emplace`/`pop` entry points are exactly the shared
protocol applied to these four bounded functors. -/
theorem typed_facade_actions {α β : Type} (value w : α) (slot : Option α)
    (construct : β → α) (args : β) (q : FifoQueueBase α)
    (wr : Except SemError Semaphore) (d : α) :
    copyConstructAt value slot = (value, some value)
    ∧ moveConstructAt value slot = (value, some value)
    ∧ emplaceConstructAt construct args slot = (args, some (construct args))
    ∧ swapAndDestroyAt value (some w) = (w, none)
    ∧ q.push wr value
      = ((q.pushImplementation wr (BoundedFunctor copyConstructAt) value).1,
         (q.pushImplementation wr (BoundedFunctor copyConstructAt) value).2.2)
    ∧ q.pushMove wr value
      = ((q.pushImplementation wr (BoundedFunctor moveConstructAt) value).1,
         (q.pushImplementation wr (BoundedFunctor moveConstructAt) value).2.2)
    ∧ q.emplace wr construct args
      = ((q.pushImplementation wr (BoundedFunctor (emplaceConstructAt construct)) args).1,
         (q.pushImplementation wr (BoundedFunctor (emplaceConstructAt construct)) args).2.2)
    ∧ q.pop wr d = q.popImplementation wr (BoundedFunctor swapAndDestroyAt) d :=
  ⟨rfl, rfl, rfl, rfl, rfl, rfl, rfl, rfl⟩

/-- C8: after `N` successful pushes into a fresh queue with no intervening
pop, the next non-blocking push fails with WouldBlock; and after those `N`
pushes followed by `N` successful pops, the queue state equals the freshly
constructed queue — indistinguishable from fresh. -/
theorem full_empty_symmetry {α : Type} (N : Nat) (d w : α) (vs : List α)
    (hvs : vs.length = N) :
    (runTrace N d (vs.map Op.push)).2.1 = vs
    ∧ (runTrace N d (vs.map Op.push)).2.2 = ([] : List α)
    ∧ ((runTrace N d (vs.map Op.push)).1.tryPush w).1 = some SemError.wouldBlock
    ∧ (runTrace N d (vs.map Op.push ++ List.replicate N Op.pop)).1
        = FifoQueueBase.construct α N := by
  obtain ⟨hA, hB, hC⟩ := runTraceAux_pushAll d N vs (FifoQueueBase.construct α N) [] []
    (inv_construct α N) (by simp [hvs])
  simp only [List.nil_append] at hA hB hC
  refine ⟨hB, hA, ?_, ?_⟩
  · have hfull := tryPush_full hC hvs w
    show ((runTraceAux d (vs.map Op.push) (FifoQueueBase.construct α N) [] []).1.tryPush w).1
      = some SemError.wouldBlock
    rw [hfull]
  · show (runTraceAux d (vs.map Op.push ++ List.replicate N Op.pop)
      (FifoQueueBase.construct α N) [] []).1 = FifoQueueBase.construct α N
    rw [runTraceAux_append, hA, hB]
    obtain ⟨p1, p2, p3⟩ := runTraceAux_popAll d N vs
      (runTraceAux d (vs.map Op.push) (FifoQueueBase.construct α N) [] []).1 [] hC
    simp only [List.nil_append] at p3
    rw [hvs] at p3
    exact eq_construct_of_inv p3 (by rw [hvs]; exact Nat.mod_self N)

/-- C8 witness: capacity 2, pushing 5 and 6 fills the queue, the third
non-blocking push would block, and two pops restore the fresh state. -/
theorem full_empty_symmetry_witness :
    ([5, 6] : List Nat).length = 2
    ∧ ((runTrace 2 0 ([5, 6].map Op.push)).2.1 = [5, 6]
      ∧ (runTrace 2 0 ([5, 6].map Op.push)).2.2 = ([] : List Nat)
      ∧ ((runTrace 2 0 ([5, 6].map Op.push)).1.tryPush 9).1 = some SemError.wouldBlock
      ∧ (runTrace 2 0 ([5, 6].map Op.push ++ List.replicate 2 Op.pop)).1
          = FifoQueueBase.construct Nat 2) :=
  ⟨rfl, full_empty_symmetry 2 0 9 [5, 6] rfl⟩

/-- C9: a push or pop whose wait variant reports TimedOut returns that error
and leaves the whole queue state — both semaphore values, both position
pointers and all slot contents — exactly as before the call; the pop also
leaves the caller's out-parameter unchanged. -/
theorem timed_out_leaves_queue_unchanged {α : Type} (q : FifoQueueBase α)
    (wr : Except SemError Semaphore) (v d : α) :
    ((q.push wr v).1 = some SemError.timedOut → (q.push wr v).2 = q)
    ∧ ((q.pop wr d).1 = some SemError.timedOut → (q.pop wr d).2 = (d, q)) := by
  constructor
  · intro h
    cases wr with
    | error e => rw [push_wait_error]
    | ok s =>
      exfalso
      rcases hp : q.popSemaphore_.post with e | s2
      · have he : e = SemError.overflow := post_error_overflow hp
        have hres : (q.push (Except.ok s) v).1 = some e := by
          show (q.pushImplementation (Except.ok s) (BoundedFunctor copyConstructAt) v).1
            = some e
          rw [FifoQueueBase.pushImplementation, popPush_result_post_error hp]
        rw [hres, he] at h
        exact absurd ((Option.some.injEq _ _).mp h) (by simp)
      · have hres : (q.push (Except.ok s) v).1 = none := by
          show (q.pushImplementation (Except.ok s) (BoundedFunctor copyConstructAt) v).1
            = none
          rw [FifoQueueBase.pushImplementation, popPush_result_post_ok hp]
        rw [hres] at h
        exact absurd h (by simp)
  · intro h
    cases wr with
    | error e => rw [pop_wait_error]
    | ok s =>
      exfalso
      rcases hp : q.pushSemaphore_.post with e | s2
      · have he : e = SemError.overflow := post_error_overflow hp
        have hres : (q.pop (Except.ok s) d).1 = some e := by
          show (q.popImplementation (Except.ok s) (BoundedFunctor swapAndDestroyAt) d).1
            = some e
          rw [FifoQueueBase.popImplementation, popPush_result_post_error hp]
        rw [hres, he] at h
        exact absurd ((Option.some.injEq _ _).mp h) (by simp)
      · have hres : (q.pop (Except.ok s) d).1 = none := by
          show (q.popImplementation (Except.ok s) (BoundedFunctor swapAndDestroyAt) d).1
            = none
          rw [FifoQueueBase.popImplementation, popPush_result_post_ok hp]
        rw [hres] at h
        exact absurd h (by simp)

/-- C9 witness: a timed-out push against the fresh queue of capacity 1
returns TimedOut and leaves the queue equal to the fresh state. -/
theorem timed_out_leaves_queue_unchanged_witness :
    ((FifoQueueBase.construct Nat 1).push (Except.error SemError.timedOut) 5).1
      = some SemError.timedOut
    ∧ ((FifoQueueBase.construct Nat 1).push (Except.error SemError.timedOut) 5).2
      = FifoQueueBase.construct Nat 1 :=
  ⟨rfl, (timed_out_leaves_queue_unchanged (FifoQueueBase.construct Nat 1)
    (Except.error SemError.timedOut) 5 5).1 rfl⟩

/-- C10: push and pop are the same protocol with the semaphore roles and the
position pointers swapped: `pushImplementation f` is exactly
`popPushImplementation` applied to the push-semaphore as wait-semaphore, the
pop-semaphore as post-semaphore and the write position, and
`popImplementation f` is exactly `popPushImplementation` applied to the
pop-semaphore as wait-semaphore, the push-semaphore as post-semaphore and
the read position. -/
theorem push_pop_shared_protocol {σ α : Type} (q : FifoQueueBase α)
    (wr : Except SemError Semaphore) (functor : SlotFunctor σ α) (env : σ) :
    (q.pushImplementation wr functor env
      = ((FifoQueueBase.popPushImplementation q.storageBegin_ q.storageEnd_ wr functor
            env q.pushSemaphore_ q.popSemaphore_ q.writePosition_ q.slots).result,
         (FifoQueueBase.popPushImplementation q.storageBegin_ q.storageEnd_ wr functor
            env q.pushSemaphore_ q.popSemaphore_ q.writePosition_ q.slots).env,
         { q with
            pushSemaphore_ := (FifoQueueBase.popPushImplementation q.storageBegin_
              q.storageEnd_ wr functor env q.pushSemaphore_ q.popSemaphore_
              q.writePosition_ q.slots).waitSemaphore,
            popSemaphore_ := (FifoQueueBase.popPushImplementation q.storageBegin_
              q.storageEnd_ wr functor env q.pushSemaphore_ q.popSemaphore_
              q.writePosition_ q.slots).postSemaphore,
            writePosition_ := (FifoQueueBase.popPushImplementation q.storageBegin_
              q.storageEnd_ wr functor env q.pushSemaphore_ q.popSemaphore_
              q.writePosition_ q.slots).storage,
            slots := (FifoQueueBase.popPushImplementation q.storageBegin_ q.storageEnd_
              wr functor env q.pushSemaphore_ q.popSemaphore_ q.writePosition_
              q.slots).slots }))
    ∧ (q.popImplementation wr functor env
      = ((FifoQueueBase.popPushImplementation q.storageBegin_ q.storageEnd_ wr functor
            env q.popSemaphore_ q.pushSemaphore_ q.readPosition_ q.slots).result,
         (FifoQueueBase.popPushImplementation q.storageBegin_ q.storageEnd_ wr functor
            env q.popSemaphore_ q.pushSemaphore_ q.readPosition_ q.slots).env,
         { q with
            popSemaphore_ := (FifoQueueBase.popPushImplementation q.storageBegin_
              q.storageEnd_ wr functor env q.popSemaphore_ q.pushSemaphore_
              q.readPosition_ q.slots).waitSemaphore,
            pushSemaphore_ := (FifoQueueBase.popPushImplementation q.storageBegin_
              q.storageEnd_ wr functor env q.popSemaphore_ q.pushSemaphore_
              q.readPosition_ q.slots).postSemaphore,
            readPosition_ := (FifoQueueBase.popPushImplementation q.storageBegin_
              q.storageEnd_ wr functor env q.popSemaphore_ q.pushSemaphore_
              q.readPosition_ q.slots).storage,
            slots := (FifoQueueBase.popPushImplementation q.storageBegin_ q.storageEnd_
              wr functor env q.popSemaphore_ q.pushSemaphore_ q.readPosition_
              q.slots).slots })) :=
  ⟨rfl, rfl⟩

end Distortos
